import Mathlib

/-!
Shallow embedding of the prism core (rust/prism_core): the suggestion/patch
engine of `src/suggestion.rs` and the diff construction engine of
`src/diff.rs`, together with theorems settling the specification claims.

File text is modelled as `List Char` (Unicode scalar values); byte offsets
are computed through each character's UTF-8 encoding size, mirroring the
Rust code's `str` byte indexing and `char_indices` iteration.
-/

namespace Prism

/-- Total UTF-8 byte length of a character sequence (Rust `str::len`). -/
def utf8Len (cs : List Char) : Nat := (cs.map Char.utf8Size).sum

/-- Split a character list at a byte offset. Returns `none` when the offset
is not a character boundary or exceeds the byte length, which is exactly
when Rust byte-slicing of the corresponding `str` would panic. -/
def splitAtByte (cs : List Char) (b : Nat) : Option (List Char × List Char) :=
  match b, cs with
  | 0, cs => some ([], cs)
  | _ + 1, [] => none
  | b + 1, c :: cs =>
    if c.utf8Size ≤ b + 1 then
      (splitAtByte cs (b + 1 - c.utf8Size)).map (fun p => (c :: p.1, p.2))
    else
      none

/-- A byte offset is a character boundary of the text (or its total length). -/
def isBoundary (cs : List Char) (b : Nat) : Bool := (splitAtByte cs b).isSome

/-- The byte slice `text[a..b]` (Rust `&text[line_start..line_end]`);
out-of-boundary offsets, unreachable where this is used, yield `[]`. -/
def sliceBytes (cs : List Char) (a b : Nat) : List Char :=
  match splitAtByte cs a with
  | none => []
  | some (_, rest) =>
    match splitAtByte rest (b - a) with
    | none => []
    | some (mid, _) => mid

/-- Side of the diff a location refers to (api/review.rs `DiffSide`). -/
inductive DiffSide
  | base
  | head
deriving DecidableEq, Repr

/-- A 1-based line/column pair (api/review.rs `Position`). The source uses
`u32`; line/column are modelled as `Nat`. -/
structure Position where
  line : Nat
  column : Option Nat
deriving DecidableEq, Repr

/-- A range bounded by two positions, end exclusive (api/review.rs `Range`).
The source's `end` field is named `stop` because `end` is reserved. -/
structure Range where
  start : Position
  stop : Position
deriving DecidableEq, Repr

/-- A range within a single file on a diff side (api/review.rs `FileRange`). -/
structure FileRange where
  path : String
  side : DiffSide
  range : Range
deriving DecidableEq, Repr

/-- A text edit of a suggestion (api/review.rs `TextEdit`). -/
structure TextEdit where
  location : FileRange
  replacement : List Char
deriving DecidableEq, Repr

/-- A suggestion: a titled list of edits (api/review.rs `Suggestion`). -/
structure Suggestion where
  title : Option String
  edits : List TextEdit
deriving DecidableEq, Repr

/-- Errors of suggestion translation/application (suggestion.rs
`SuggestionError`). The variants wrapping external `git2`/IO errors keep
only the path payload. -/
inductive SuggestionError
  | absolutePath (path : String)
  | pathTraversal (path : String)
  | unsupportedSide (path : String) (side : DiffSide)
  | missingFile (path : String)
  | lineOutOfBounds (path : String) (line : Nat)
  | columnOutOfBounds (path : String) (line : Nat) (column : Nat)
  | overlappingEdits (path : String)
  | invalidRange (path : String) (start : Nat) (stop : Nat)
  | gitDiff (path : String)
deriving DecidableEq, Repr

/-- Model of `SuggestionError::with_path` (suggestion.rs): fill in the path of
line/column errors. -/
def withPath (path : String) : SuggestionError → SuggestionError
  | .lineOutOfBounds _ line => .lineOutOfBounds path line
  | .columnOutOfBounds _ line column => .columnOutOfBounds path line column
  | other => other

/-- A failure of the applier: a `SuggestionError`, or a Rust panic
(out-of-boundary `replace_range`). -/
inductive Failure
  | panicked
  | err (e : SuggestionError)
deriving DecidableEq, Repr

/-- Byte offsets starting each line after the first: the recursion inside
`OffsetConverter::new` (suggestion.rs), pushing `index + 1` for every
newline, where `index` is the byte offset of the scanned character. -/
def lineStartsAux : List Char → Nat → List Nat
  | [], _ => []
  | c :: cs, i =>
    let rest := lineStartsAux cs (i + c.utf8Size)
    if c = '\n' then (i + 1) :: rest else rest

/-- The line-start table of `OffsetConverter::new` (suggestion.rs): offset 0
for line 1, then one entry per newline. -/
def lineStarts (text : List Char) : List Nat :=
  0 :: lineStartsAux text 0

/-- The column-seeking loop of `OffsetConverter::offset` (suggestion.rs):
walk the line's characters counting columns from 1; return the running byte
offset when the target column is reached, the line end when the target is
one past the last character, and `ColumnOutOfBounds` otherwise. -/
def offsetLoop (slice : List Char) (base col target ln lineEnd : Nat) :
    Except SuggestionError Nat :=
  match slice with
  | [] =>
    if col = target then .ok lineEnd
    else .error (.columnOutOfBounds "" ln target)
  | c :: cs =>
    if col = target then .ok base
    else offsetLoop cs (base + c.utf8Size) (col + 1) target ln lineEnd

/-- Model of `OffsetConverter::offset` (suggestion.rs): convert a 1-based position to
a byte offset into the text. -/
def offset (text : List Char) (position : Position) :
    Except SuggestionError Nat :=
  if position.line = 0 then .error (.lineOutOfBounds "" position.line)
  else
    let lineIndex := position.line - 1
    let ls := lineStarts text
    if lineIndex > ls.length then .error (.lineOutOfBounds "" position.line)
    else if lineIndex = ls.length then
      if position.column.getD 1 = 1 then .ok (utf8Len text)
      else .error (.columnOutOfBounds "" position.line (position.column.getD 0))
    else
      let lineStart := ls.getD lineIndex 0
      let lineEnd := if lineIndex + 1 < ls.length then ls.getD (lineIndex + 1) 0
                     else utf8Len text
      let targetColumn := position.column.getD 1
      if targetColumn = 1 then .ok lineStart
      else
        offsetLoop (sliceBytes text lineStart lineEnd) lineStart 1
          targetColumn position.line lineEnd

/-- Model of `OffsetConverter::span` (suggestion.rs): reject non-head sides, convert
both endpoints, reject start past end. -/
def span (text : List Char) (range : FileRange) :
    Except SuggestionError (Nat × Nat) :=
  if range.side ≠ DiffSide.head then
    .error (.unsupportedSide range.path range.side)
  else
    match offset text range.range.start with
    | .error e => .error e
    | .ok start =>
      match offset text range.range.stop with
      | .error e => .error e
      | .ok stop =>
        if start > stop then
          .error (.invalidRange range.path start stop)
        else
          .ok (start, stop)

/-- Start byte offset of the (0-based) line `idx`: the `line_start[idx]`
lookup of `OffsetConverter::offset` (suggestion.rs). -/
def lineStartOf (text : List Char) (idx : Nat) : Nat :=
  (lineStarts text).getD idx 0

/-- End byte offset of the (0-based) line `idx`: the next line's start, or
the text's end for the last line (`OffsetConverter::offset`, suggestion.rs). -/
def lineEndOf (text : List Char) (idx : Nat) : Nat :=
  if idx + 1 < (lineStarts text).length then (lineStarts text).getD (idx + 1) 0
  else utf8Len text

/-- The byte span of the (0-based) line `idx`, including its trailing
newline: the `&self.text[line_start..line_end]` slice of
`OffsetConverter::offset` (suggestion.rs). -/
def lineSlice (text : List Char) (idx : Nat) : List Char :=
  sliceBytes text (lineStartOf text idx) (lineEndOf text idx)

/-- Insert `a` into a sorted list, before the first element not strictly
below it, so that elements with equal keys keep their original order. -/
def insertBy (lt : α → α → Bool) (a : α) : List α → List α
  | [] => [a]
  | b :: bs => if lt b a then b :: insertBy lt a bs else a :: b :: bs

/-- Stable insertion sort, modelling Rust's stable `sort_by_key` (and the
ascending key iteration order of `BTreeMap`). -/
def sortBy (lt : α → α → Bool) : List α → List α
  | [] => []
  | a :: as => insertBy lt a (sortBy lt as)

/-- A resolved replacement (suggestion.rs `Replacement`); the source's `end`
field is named `stop`. -/
structure Replacement where
  start : Nat
  stop : Nat
  replacement : List Char
deriving DecidableEq, Repr

/-- Split a character sequence on `/`, yielding the path's segments (Unix
path components before filtering; a `".."` segment is Rust's
`Component::ParentDir`). -/
def splitPathAux : List Char → List Char → List (List Char)
  | [], acc => [acc.reverse]
  | c :: cs, acc =>
    if c = '/' then acc.reverse :: splitPathAux cs []
    else splitPathAux cs (c :: acc)

/-- Segments of a path string. -/
def splitPath (p : String) : List (List Char) :=
  splitPathAux p.data []

/-- Model of `sanitize_path` (suggestion.rs): reject absolute paths and paths with a
parent-directory component. The source returns `root.join(candidate)`; the
model keys the file system by the relative path, so success carries no
data. Unix path syntax: absolute means a leading `/`, and a
parent-directory component is a `".."` segment. -/
def sanitizePath (relative : String) : Except SuggestionError Unit :=
  if relative.data.head? = some '/' then .error (.absolutePath relative)
  else if (splitPath relative).contains ('.' :: '.' :: []) then
    .error (.pathTraversal relative)
  else .ok ()

/-- Model of `ensure_non_overlapping` (suggestion.rs): walk consecutive pairs of the
sorted replacements; reject when an earlier end exceeds a later start. -/
def ensureNonOverlapping (path : String) :
    List Replacement → Except SuggestionError Unit
  | first :: second :: rest =>
    if first.stop > second.start then .error (.overlappingEdits path)
    else ensureNonOverlapping path (second :: rest)
  | _ => .ok ()

/-- Rust `String::replace_range(start..stop, replacement)`: `none` models
the panic on a reversed range or a non-boundary offset. -/
def replaceRange (text : List Char) (start stop : Nat) (repl : List Char) :
    Option (List Char) :=
  if stop < start then none
  else
    match splitAtByte text start with
    | none => none
    | some (pre, rest) =>
      match splitAtByte rest (stop - start) with
      | none => none
      | some (_, post) => some (pre ++ repl ++ post)

/-- The reverse-order application loop of `build_change` (suggestion.rs):
apply replacements walking in descending start order. -/
def applyReplacements (original : List Char) (reps : List Replacement) :
    Option (List Char) :=
  reps.reverse.foldlM
    (fun acc r => replaceRange acc r.start r.stop r.replacement) original

/-- The span-resolution loop of `build_change` (suggestion.rs): convert each
edit to a `Replacement` in order, stopping at the first failing edit and
filling the file path into line/column errors. -/
def resolveSpans (text : List Char) (path : String) :
    List TextEdit → Except SuggestionError (List Replacement)
  | [] => .ok []
  | edit :: rest =>
    match span text edit.location with
    | .error e => .error (withPath path e)
    | .ok (start, stop) =>
      match resolveSpans text path rest with
      | .error e => .error e
      | .ok reps =>
        .ok ({ start := start, stop := stop, replacement := edit.replacement } :: reps)

/-- A fully resolved per-file change (suggestion.rs `FileChange`). -/
structure FileChange where
  path : String
  original : List Char
  updated : List Char
deriving DecidableEq, Repr

/-- The file system visible to the applier: relative path to current text;
`none` models a read failing with not-found. Other I/O read errors are not
modelled. -/
def FileSystem := String → Option (List Char)

/-- Model of `SuggestionApplier::build_change` (suggestion.rs): sanitize the path,
read the file, resolve every edit's span, sort by start, reject overlaps,
and splice replacements in descending start order. -/
def buildChange (fs : FileSystem) (path : String) (edits : List TextEdit) :
    Except Failure FileChange :=
  match sanitizePath path with
  | .error e => .error (.err e)
  | .ok _ =>
    match fs path with
    | none => .error (.err (.missingFile path))
    | some original =>
      match resolveSpans original path edits with
      | .error e => .error (.err e)
      | .ok replacements =>
        let sorted := sortBy (fun a b => a.start < b.start) replacements
        match ensureNonOverlapping path sorted with
        | .error e => .error (.err e)
        | .ok _ =>
          match applyReplacements original sorted with
          | none => .error .panicked
          | some updated =>
            .ok { path := path, original := original, updated := updated }

/-- Lexicographic comparison of character sequences; on Unicode scalar
sequences this agrees with Rust's byte-wise `str` ordering, the `BTreeMap`
key order. -/
def listCharLt : List Char → List Char → Bool
  | [], [] => false
  | [], _ :: _ => true
  | _ :: _, [] => false
  | a :: as, b :: bs => if a < b then true else if b < a then false else listCharLt as bs

/-- The distinct target paths of a suggestion in ascending order: the key
set of the `BTreeMap` grouping in `compute_changes` (suggestion.rs). -/
def groupedPaths (s : Suggestion) : List String :=
  sortBy (fun a b => listCharLt a.data b.data)
    ((s.edits.map fun e => e.location.path).eraseDups)

/-- The edits of a suggestion targeting one path, in suggestion order: one
bucket of the `BTreeMap` grouping in `compute_changes` (suggestion.rs). -/
def editsFor (s : Suggestion) (path : String) : List TextEdit :=
  s.edits.filter fun e => e.location.path == path

/-- The per-path loop of `compute_changes` (suggestion.rs): build a change
for each target path in order, stopping at the first failure. -/
def buildChangesFor (fs : FileSystem) (s : Suggestion) :
    List String → Except Failure (List FileChange)
  | [] => .ok []
  | path :: rest =>
    match buildChange fs path (editsFor s path) with
    | .error e => .error e
    | .ok change =>
      match buildChangesFor fs s rest with
      | .error e => .error e
      | .ok changes => .ok (change :: changes)

/-- Model of `SuggestionApplier::compute_changes` (suggestion.rs): build a change per
target path, in ascending path order. -/
def computeChanges (fs : FileSystem) (s : Suggestion) :
    Except Failure (List FileChange) :=
  buildChangesFor fs s (groupedPaths s)

/-- Preview of applying a suggestion to a file (suggestion.rs
`ApplyPreview`). -/
structure ApplyPreview where
  path : String
  patch : String
deriving DecidableEq, Repr

/-- A renderer of unified-diff text between original and updated content,
abstracting the external `build_patch`/`git2::Patch` call (suggestion.rs);
an `Except` error models the library failing. -/
def PatchFn := String → List Char → List Char → Except Unit String

/-- The preview loop of `dry_run` (suggestion.rs): skip unchanged files,
render a patch for every changed one. -/
def buildPreviews (patchFn : PatchFn) :
    List FileChange → Except Failure (List ApplyPreview)
  | [] => .ok []
  | change :: rest =>
    if change.original = change.updated then buildPreviews patchFn rest
    else
      match patchFn change.path change.original change.updated with
      | .error _ => .error (.err (.gitDiff change.path))
      | .ok patch =>
        match buildPreviews patchFn rest with
        | .error e => .error e
        | .ok previews => .ok ({ path := change.path, patch := patch } :: previews)

/-- Model of `SuggestionApplier::dry_run` (suggestion.rs): compute all changes, then
render previews for the files that actually changed. No state is taken or
returned: the operation reads file content only. -/
def dryRun (fs : FileSystem) (patchFn : PatchFn) (s : Suggestion) :
    Except Failure (List ApplyPreview) :=
  match computeChanges fs s with
  | .error e => .error e
  | .ok changes => buildPreviews patchFn changes

/-- The mutable workspace state of `apply` (suggestion.rs): file contents
plus the ordered list of paths staged into the index. -/
structure WorkTree where
  fs : FileSystem
  staged : List String

/-- Write a file into the working tree (the `fs::write` of `apply`). -/
def writeFile (w : WorkTree) (path : String) (content : List Char) : WorkTree :=
  { w with fs := fun p => if p = path then some content else w.fs p }

/-- Stage a path into the index (the `index.add_path` of `apply`). -/
def stagePath (w : WorkTree) (path : String) : WorkTree :=
  { w with staged := w.staged ++ [path] }

/-- Model of `SuggestionApplier::apply` (suggestion.rs): compute all changes first;
on any validation failure return it with the tree untouched; otherwise
write and stage every file whose content actually changed. Write and
staging failures are not modelled (writes always succeed). -/
def applySuggestion (w : WorkTree) (s : Suggestion) :
    Except Failure Unit × WorkTree :=
  match computeChanges w.fs s with
  | .error e => (.error e, w)
  | .ok changes =>
    if changes.isEmpty then (.ok (), w)
    else
      (.ok (), changes.foldl
        (fun acc change =>
          if change.original = change.updated then acc
          else stagePath (writeFile acc change.path change.updated) change.path)
        w)

/-- Kind of a diff line (api/diff.rs `DiffLineKind`). -/
inductive DiffLineKind
  | context
  | addition
  | deletion
deriving DecidableEq, Repr

/-- Backend line-origin codes (git2 `DiffLineType`), matched by
`convert_line_kind` (diff.rs). -/
inductive DiffLineType
  | context
  | addition
  | deletion
  | contextEOFNL
  | addEOFNL
  | deleteEOFNL
  | fileHeader
  | hunkHeader
  | binaryMarker
deriving DecidableEq, Repr

/-- Backend file-delta kinds (git2 `Delta`), matched by `convert_status`
(diff.rs). -/
inductive Delta
  | added
  | deleted
  | modified
  | renamed
  | copied
  | ignored
  | untracked
  | typechange
  | unmodified
  | unreadable
  | conflicted
deriving DecidableEq, Repr

/-- Status of a file change (api/diff.rs `FileStatus`). -/
inductive FileStatus
  | added
  | deleted
  | modified
  | renamed
  | copied
  | typeChange
deriving DecidableEq, Repr

/-- Addition/deletion counters (api/diff.rs `DiffStats`); `u32` in the
source, modelled as `Nat`. -/
structure DiffStats where
  additions : Nat
  deletions : Nat
deriving DecidableEq, Repr

/-- Hunk header line ranges (api/diff.rs `DiffRange`). -/
structure DiffRange where
  baseStart : Nat
  baseLines : Nat
  headStart : Nat
  headLines : Nat
deriving DecidableEq, Repr

/-- Intraline highlight span (api/diff.rs `LineHighlight`); the builder
never populates these. -/
structure LineHighlight where
  startColumn : Nat
  endColumn : Nat
deriving DecidableEq, Repr

/-- A single line within a hunk (api/diff.rs `DiffLine`). -/
structure DiffLine where
  kind : DiffLineKind
  text : List Char
  baseLine : Option Nat
  headLine : Option Nat
  highlights : List LineHighlight
deriving DecidableEq, Repr

/-- A diff hunk (api/diff.rs `DiffHunk`); the source's `section` field is
named `sectionText` because `section` is reserved. -/
structure DiffHunk where
  header : DiffRange
  sectionText : Option (List Char)
  lines : List DiffLine
deriving DecidableEq, Repr

/-- A per-file diff (api/diff.rs `DiffFile`). -/
structure DiffFile where
  path : String
  oldPath : Option String
  status : FileStatus
  stats : DiffStats
  isBinary : Bool
  hunks : List DiffHunk
deriving DecidableEq, Repr

/-- Model of `convert_status` (diff.rs). -/
def convertStatus : Delta → FileStatus
  | .added | .untracked => .added
  | .deleted => .deleted
  | .modified | .ignored | .unreadable | .conflicted | .unmodified => .modified
  | .renamed => .renamed
  | .copied => .copied
  | .typechange => .typeChange

/-- Model of `convert_line_kind` (diff.rs). -/
def convertLineKind : DiffLineType → Option DiffLineKind
  | .context | .contextEOFNL => some .context
  | .addition | .addEOFNL => some .addition
  | .deletion | .deleteEOFNL => some .deletion
  | .binaryMarker | .fileHeader | .hunkHeader => none

/-- Model of `trim_line_endings` (diff.rs): drop one trailing newline and, when it
directly preceded that newline, one carriage return. -/
def trimLineEndings (line : List Char) : List Char :=
  if line.getLast? = some '\n' then
    let line := line.dropLast
    if line.getLast? = some '\r' then line.dropLast else line
  else line

/-- Model of `sanitize_line` (diff.rs), with line bytes modelled as already decoded
text; the lossy replacement of invalid UTF-8 is the external library's
behavior and is not modelled. -/
def sanitizeLine (bytes : List Char) : List Char :=
  trimLineEndings bytes

/-- Trailing CR/LF trimming of `parse_section` (diff.rs), mirroring
`trim_end_matches(['\r', '\n'])`. -/
def trimTrailingCrlf (s : List Char) : List Char :=
  (s.reverse.dropWhile fun c => c == '\r' || c == '\n').reverse

/-- Whitespace trimming on both ends (Rust `str::trim`). -/
def trimChars (s : List Char) : List Char :=
  ((s.dropWhile Char.isWhitespace).reverse.dropWhile Char.isWhitespace).reverse

/-- Index of the last occurrence of `"@@"` (Rust `str::rfind("@@")`). -/
def rfindAtAt (s : List Char) : Option Nat :=
  ((List.range s.length).filter fun i =>
    ((s.drop i).take 2) == ['@', '@']).getLast?

/-- Model of `parse_section` (diff.rs): trim trailing CR/LF, take the trimmed text
after the last `"@@"`, and drop empty results. Header bytes are modelled as
already decoded text; invalid UTF-8 (yielding no section) is not modelled. -/
def parseSection (header : List Char) : Option (List Char) :=
  let trimmed := trimTrailingCrlf header
  match rfindAtAt trimmed with
  | none => none
  | some closing =>
    let sec := trimChars (trimmed.drop (closing + 2))
    if sec = [] then none else some sec

/-- Payload of a file-started event (git2 `DiffDelta`): status kind, the two
side paths, and the per-side binary flags. -/
structure DeltaInfo where
  status : Delta
  oldPath : Option String
  newPath : Option String
  oldIsBinary : Bool
  newIsBinary : Bool
deriving DecidableEq, Repr

/-- Payload of a hunk-started event (git2 `DiffHunk`). -/
structure HunkInfo where
  oldStart : Nat
  oldLines : Nat
  newStart : Nat
  newLines : Nat
  header : List Char
deriving DecidableEq, Repr

/-- Payload of a line event (git2 `DiffLine`). -/
structure LineInfo where
  origin : DiffLineType
  content : List Char
  oldLineno : Option Nat
  newLineno : Option Nat
deriving DecidableEq, Repr

/-- One event of the backend's ordered comparison stream, as dispatched by
the callbacks of `build_files` (diff.rs). -/
inductive DiffEvent
  | fileStarted (delta : DeltaInfo)
  | binaryDetected
  | hunkStarted (hunk : HunkInfo)
  | line (line : LineInfo)
deriving DecidableEq, Repr

/-- Apply a function to the last element of a list, when present: the
`files.last_mut()` access pattern of `DiffBuilder` (diff.rs). -/
def modifyLast (f : α → α) : List α → List α
  | [] => []
  | [x] => [f x]
  | x :: xs => x :: modifyLast f xs

/-- Model of `DiffBuilder::start_file` (diff.rs): classify the status, pick the
canonical path, record `old_path` only for renames/copies whose path
changed, and seed zero stats with the per-side binary flags. -/
def startFile (files : List DiffFile) (delta : DeltaInfo) : List DiffFile :=
  let status := convertStatus delta.status
  let path :=
    match status, delta.newPath, delta.oldPath with
    | .deleted, _, some old => old
    | _, none, some old => old
    | _, some newer, _ => newer
    | _, _, _ => ""
  let oldPath :=
    if (status = .renamed ∨ status = .copied) ∧ delta.oldPath ≠ delta.newPath
    then delta.oldPath else none
  files ++ [{ path := path
              oldPath := oldPath
              status := status
              stats := ⟨0, 0⟩
              isBinary := delta.newIsBinary || delta.oldIsBinary
              hunks := [] }]

/-- Model of `DiffBuilder::mark_binary` (diff.rs): flag the current file binary and
clear any hunks already accumulated. -/
def markBinary (files : List DiffFile) : List DiffFile :=
  modifyLast (fun file => { file with isBinary := true, hunks := [] }) files

/-- The per-file body of `DiffBuilder::start_hunk` (diff.rs). -/
def startHunkFile (hunk : HunkInfo) (file : DiffFile) : DiffFile :=
  if file.isBinary then file
  else
    { file with
        hunks := file.hunks ++
          [{ header := ⟨hunk.oldStart, hunk.oldLines, hunk.newStart, hunk.newLines⟩
             sectionText := parseSection hunk.header
             lines := [] }] }

/-- Model of `DiffBuilder::start_hunk` (diff.rs). -/
def startHunk (files : List DiffFile) (hunk : HunkInfo) : List DiffFile :=
  modifyLast (startHunkFile hunk) files

/-- The per-file body of `DiffBuilder::push_line` (diff.rs): ignore binary
files and files with no open hunk; drop structural origin codes; otherwise
bump the matching counter and append the sanitized line to the last hunk. -/
def pushLineFile (line : LineInfo) (file : DiffFile) : DiffFile :=
  if file.isBinary then file
  else if file.hunks.isEmpty then file
  else
    match convertLineKind line.origin with
    | none => file
    | some kind =>
      let stats :=
        if kind = .addition then
          { file.stats with additions := file.stats.additions + 1 }
        else if kind = .deletion then
          { file.stats with deletions := file.stats.deletions + 1 }
        else file.stats
      let newLine : DiffLine :=
        { kind := kind
          text := sanitizeLine line.content
          baseLine := line.oldLineno
          headLine := line.newLineno
          highlights := [] }
      { file with
          stats := stats
          hunks := modifyLast (fun h => { h with lines := h.lines ++ [newLine] })
                     file.hunks }

/-- Model of `DiffBuilder::push_line` (diff.rs). -/
def pushLine (files : List DiffFile) (line : LineInfo) : List DiffFile :=
  modifyLast (pushLineFile line) files

/-- Dispatch one backend event into the builder, as the callbacks of
`build_files` (diff.rs) do. -/
def processEvent (files : List DiffFile) : DiffEvent → List DiffFile
  | .fileStarted delta => startFile files delta
  | .binaryDetected => markBinary files
  | .hunkStarted hunk => startHunk files hunk
  | .line line => pushLine files line

/-- Model of `build_files` (diff.rs): fold the backend's ordered event stream through
the builder, starting from no files. -/
def buildFiles (events : List DiffEvent) : List DiffFile :=
  events.foldl processEvent []

/-- Number of lines of a given kind across a file's hunks. -/
def countKind (k : DiffLineKind) (hunks : List DiffHunk) : Nat :=
  (hunks.map fun h => (h.lines.filter fun l => l.kind == k).length).sum

/-- The `DiffLine` that `push_line` appends for a mapped origin code. -/
def mkPushedLine (l : LineInfo) (kind : DiffLineKind) : DiffLine :=
  { kind := kind
    text := sanitizeLine l.content
    baseLine := l.oldLineno
    headLine := l.newLineno
    highlights := [] }

lemma mem_modifyLast {f : α → α} {l : List α} {a : α} (h : a ∈ modifyLast f l) :
    a ∈ l ∨ ∃ x, x ∈ l ∧ a = f x := by
  induction l with
  | nil => simp [modifyLast] at h
  | cons x xs ih =>
    cases xs with
    | nil =>
      simp [modifyLast] at h
      exact Or.inr ⟨x, by simp, h⟩
    | cons y ys =>
      simp only [modifyLast] at h
      rcases List.mem_cons.mp h with h | h
      · exact Or.inl (by simp [h])
      · rcases ih h with h | ⟨z, hz, hza⟩
        · exact Or.inl (List.mem_cons_of_mem _ h)
        · exact Or.inr ⟨z, List.mem_cons_of_mem _ hz, hza⟩

lemma modifyLast_eq_self {f : α → α} {l : List α} (h : ∀ x ∈ l, f x = x) :
    modifyLast f l = l := by
  induction l with
  | nil => rfl
  | cons x xs ih =>
    cases xs with
    | nil => simp [modifyLast, h x (by simp)]
    | cons y ys =>
      simp only [modifyLast]
      rw [ih (fun z hz => h z (List.mem_cons_of_mem _ hz))]

lemma countKind_modifyLast_append (k : DiffLineKind) (nl : DiffLine)
    (hunks : List DiffHunk) (hne : hunks ≠ []) :
    countKind k (modifyLast (fun h => { h with lines := h.lines ++ [nl] }) hunks) =
      countKind k hunks + (if nl.kind == k then 1 else 0) := by
  induction hunks with
  | nil => cases hne rfl
  | cons x xs ih =>
    cases xs with
    | nil =>
      by_cases h : nl.kind = k <;>
        simp [modifyLast, countKind, List.filter_append, h]
    | cons y ys =>
      have := ih (by simp)
      simp only [modifyLast, countKind, List.map_cons, List.sum_cons] at this ⊢
      omega

lemma pushLineFile_none {l : LineInfo} (x : DiffFile)
    (h : convertLineKind l.origin = none) : pushLineFile l x = x := by
  unfold pushLineFile
  by_cases h1 : x.isBinary <;> by_cases h2 : x.hunks.isEmpty <;>
    simp [h1, h2, h]

lemma pushLineFile_some {l : LineInfo} (x : DiffFile) {kind : DiffLineKind}
    (h : convertLineKind l.origin = some kind) (h1 : x.isBinary = false)
    (h2 : x.hunks ≠ []) :
    pushLineFile l x =
      { x with
          stats := ⟨x.stats.additions + (if kind = .addition then 1 else 0),
                    x.stats.deletions + (if kind = .deletion then 1 else 0)⟩
          hunks := modifyLast (fun hk => { hk with lines := hk.lines ++ [mkPushedLine l kind] })
                     x.hunks } := by
  unfold pushLineFile
  have h2' : x.hunks.isEmpty = false := by
    cases hx : x.hunks with
    | nil => cases h2 hx
    | cons a as => rfl
  simp only [h1, h2', h, Bool.false_eq_true, if_false, if_neg]
  cases kind <;> simp [mkPushedLine]

lemma pushLineFile_isBinary (l : LineInfo) (x : DiffFile) :
    (pushLineFile l x).isBinary = x.isBinary := by
  by_cases h1 : x.isBinary
  · simp [pushLineFile, h1]
  · cases h : convertLineKind l.origin with
    | none => rw [pushLineFile_none x h]
    | some kind =>
      by_cases h2 : x.hunks = []
      · simp [pushLineFile, h1, h2, h]
      · rw [pushLineFile_some x h (by simpa using h1) h2]

lemma foldl_processEvent_inv (P : DiffFile → Prop)
    (hpres : ∀ files e, (∀ f ∈ files, P f) → ∀ f ∈ processEvent files e, P f)
    (events : List DiffEvent) :
    ∀ files, (∀ f ∈ files, P f) →
      ∀ f ∈ events.foldl processEvent files, P f := by
  induction events with
  | nil => intro files h; simpa using h
  | cons e es ih => intro files h; exact ih _ (hpres _ _ h)

lemma processEvent_pres_binaryHunks (files : List DiffFile) (e : DiffEvent)
    (h : ∀ f ∈ files, f.isBinary = true → f.hunks = []) :
    ∀ f ∈ processEvent files e, f.isBinary = true → f.hunks = [] := by
  intro f hf hb
  cases e with
  | fileStarted d =>
    simp only [processEvent, startFile] at hf
    rcases List.mem_append.mp hf with hmem | hmem
    · exact h f hmem hb
    · simp at hmem
      simp [hmem]
  | binaryDetected =>
    simp only [processEvent, markBinary] at hf
    rcases mem_modifyLast hf with hmem | ⟨x, _, rfl⟩
    · exact h f hmem hb
    · rfl
  | hunkStarted hk =>
    simp only [processEvent, startHunk] at hf
    rcases mem_modifyLast hf with hmem | ⟨x, hx, rfl⟩
    · exact h f hmem hb
    · by_cases hxb : x.isBinary
      · have hid : startHunkFile hk x = x := by simp [startHunkFile, hxb]
        rw [hid] at hb ⊢
        exact h x hx hb
      · exfalso
        have : (startHunkFile hk x).isBinary = x.isBinary := by
          simp [startHunkFile, hxb]
        rw [this] at hb
        exact hxb hb
  | line l =>
    simp only [processEvent, pushLine] at hf
    rcases mem_modifyLast hf with hmem | ⟨x, hx, rfl⟩
    · exact h f hmem hb
    · rw [pushLineFile_isBinary l x] at hb
      have hid : pushLineFile l x = x := by simp [pushLineFile, hb]
      rw [hid]
      exact h x hx hb

lemma processEvent_pres_statsCount (files : List DiffFile) (e : DiffEvent)
    (h : ∀ f ∈ files, f.isBinary = false →
      countKind .addition f.hunks = f.stats.additions ∧
      countKind .deletion f.hunks = f.stats.deletions) :
    ∀ f ∈ processEvent files e, f.isBinary = false →
      countKind .addition f.hunks = f.stats.additions ∧
      countKind .deletion f.hunks = f.stats.deletions := by
  intro f hf hnb
  cases e with
  | fileStarted d =>
    simp only [processEvent, startFile] at hf
    rcases List.mem_append.mp hf with hmem | hmem
    · exact h f hmem hnb
    · simp at hmem
      simp [hmem, countKind]
  | binaryDetected =>
    simp only [processEvent, markBinary] at hf
    rcases mem_modifyLast hf with hmem | ⟨x, _, rfl⟩
    · exact h f hmem hnb
    · simp at hnb
  | hunkStarted hk =>
    simp only [processEvent, startHunk] at hf
    rcases mem_modifyLast hf with hmem | ⟨x, hx, rfl⟩
    · exact h f hmem hnb
    · by_cases hxb : x.isBinary
      · have hid : startHunkFile hk x = x := by simp [startHunkFile, hxb]
        rw [hid] at hnb ⊢
        exact h x hx hnb
      · have hexp : startHunkFile hk x =
            { x with hunks := x.hunks ++
                [{ header := ⟨hk.oldStart, hk.oldLines, hk.newStart, hk.newLines⟩
                   sectionText := parseSection hk.header
                   lines := [] }] } := by
          simp [startHunkFile, hxb]
        rw [hexp]
        have hx' := h x hx (by simpa using hxb)
        simp [countKind] at hx' ⊢
        exact hx'
  | line l =>
    simp only [processEvent, pushLine] at hf
    rcases mem_modifyLast hf with hmem | ⟨x, hx, rfl⟩
    · exact h f hmem hnb
    · have hxb : x.isBinary = false := by
        rw [← pushLineFile_isBinary l x]; exact hnb
      cases hck : convertLineKind l.origin with
      | none =>
        rw [pushLineFile_none x hck]
        exact h x hx hxb
      | some kind =>
        by_cases h2 : x.hunks = []
        · have hid : pushLineFile l x = x := by
            simp [pushLineFile, hxb, h2, hck]
          rw [hid]
          exact h x hx hxb
        · rw [pushLineFile_some x hck hxb h2]
          have hx' := h x hx hxb
          constructor
          · simp only [countKind_modifyLast_append _ _ _ h2]
            cases kind <;> simp [mkPushedLine, hx'.1]
          · simp only [countKind_modifyLast_append _ _ _ h2]
            cases kind <;> simp [mkPushedLine, hx'.2]

/-- C4: for every backend event sequence, every resulting `DiffFile` that is
marked binary has no hunks — the binary flag may come from the per-side
flags of the file-started event or from a later binary-detected event, and
hunk or line events never reattach hunks to a binary file. -/
theorem c4_binary_implies_no_hunks (events : List DiffEvent) (f : DiffFile)
    (hf : f ∈ buildFiles events) (hb : f.isBinary = true) : f.hunks = [] :=
  foldl_processEvent_inv (fun f => f.isBinary = true → f.hunks = [])
    processEvent_pres_binaryHunks events [] (by simp) f hf hb

/-- Witness for C4 at a concrete event stream where a hunk is emitted
before the binary flag. -/
theorem c4_binary_implies_no_hunks_witness :
    (({ path := "a.bin", oldPath := none, status := .modified,
        stats := ⟨0, 0⟩, isBinary := true, hunks := [] } : DiffFile)).hunks = [] :=
  c4_binary_implies_no_hunks
    [.fileStarted ⟨.modified, some "a.bin", some "a.bin", false, false⟩,
     .hunkStarted ⟨1, 1, 1, 1, ('@' :: '@' :: ' ' :: '-' :: '1' :: ' ' :: '+' :: '1' :: ' ' :: '@' :: '@' :: [])⟩,
     .binaryDetected]
    { path := "a.bin", oldPath := none, status := .modified,
      stats := ⟨0, 0⟩, isBinary := true, hunks := [] }
    (by decide) rfl

/-- C3 counterexample: a line event counted before a binary-detected event
survives in the stats while the hunks are cleared, so the resulting file has
`stats.additions = 1` but zero Addition lines across its hunks, refuting the
claimed invariant for arbitrary event sequences. -/
theorem c3_stats_counterexample :
    (buildFiles
      [.fileStarted ⟨.modified, some "a.bin", some "a.bin", false, false⟩,
       .hunkStarted ⟨1, 1, 1, 2, ('@' :: '@' :: ' ' :: '-' :: '1' :: ' ' :: '+' :: '1' :: ',' :: '2' :: ' ' :: '@' :: '@' :: [])⟩,
       .line ⟨.addition, ('x' :: '\n' :: []), none, some 2⟩,
       .binaryDetected]).map
      (fun f => (f.stats.additions, countKind .addition f.hunks, f.isBinary)) =
      [(1, 0, true)] := by
  decide

/-- C3 (amended): for every backend event sequence, every resulting
`DiffFile` that is not binary has `stats.additions` equal to the number of
Addition-kind lines and `stats.deletions` equal to the number of
Deletion-kind lines summed across its hunks. (Files marked binary after
line events keep the counted stats while their hunks are cleared.) -/
theorem c3_stats_match_line_counts (events : List DiffEvent) (f : DiffFile)
    (hf : f ∈ buildFiles events) (hnb : f.isBinary = false) :
    countKind .addition f.hunks = f.stats.additions ∧
      countKind .deletion f.hunks = f.stats.deletions :=
  foldl_processEvent_inv
    (fun f => f.isBinary = false →
      countKind .addition f.hunks = f.stats.additions ∧
      countKind .deletion f.hunks = f.stats.deletions)
    processEvent_pres_statsCount events [] (by simp) f hf hnb

/-- Witness for C3's amended theorem at a concrete event stream with one
addition line. -/
theorem c3_stats_match_line_counts_witness :
    countKind .addition
        ({ path := "f.txt", oldPath := none, status := .modified,
           stats := ⟨1, 0⟩, isBinary := false,
           hunks := [{ header := ⟨1, 1, 1, 1⟩, sectionText := none,
                       lines := [{ kind := .addition, text := ['x'],
                                   baseLine := none, headLine := some 1,
                                   highlights := [] }] }] } : DiffFile).hunks = 1 ∧
      countKind .deletion
        ({ path := "f.txt", oldPath := none, status := .modified,
           stats := ⟨1, 0⟩, isBinary := false,
           hunks := [{ header := ⟨1, 1, 1, 1⟩, sectionText := none,
                       lines := [{ kind := .addition, text := ['x'],
                                   baseLine := none, headLine := some 1,
                                   highlights := [] }] }] } : DiffFile).hunks = 0 := by
  have h := c3_stats_match_line_counts
    [.fileStarted ⟨.modified, some "f.txt", some "f.txt", false, false⟩,
     .hunkStarted ⟨1, 1, 1, 1, ('@' :: '@' :: ' ' :: '-' :: '1' :: ' ' :: '+' :: '1' :: ' ' :: '@' :: '@' :: [])⟩,
     .line ⟨.addition, ('x' :: '\n' :: []), none, some 1⟩]
    { path := "f.txt", oldPath := none, status := .modified,
      stats := ⟨1, 0⟩, isBinary := false,
      hunks := [{ header := ⟨1, 1, 1, 1⟩, sectionText := none,
                  lines := [{ kind := .addition, text := ['x'],
                              baseLine := none, headLine := some 1,
                              highlights := [] }] }] }
    (by decide) rfl
  exact ⟨h.1, h.2⟩

/-- C2 counterexample: the line-ending-only origin code `AddEOFNL` does
produce a `DiffLine` (of Addition kind) and does increment the addition
counter, refuting the claim that EOFNL codes produce no line and leave the
counters unchanged. -/
theorem c2_eofnl_counterexample :
    convertLineKind .addEOFNL = some .addition ∧
      (pushLine
        [{ path := "f.txt", oldPath := none, status := .modified,
           stats := ⟨0, 0⟩, isBinary := false,
           hunks := [{ header := ⟨1, 1, 1, 1⟩, sectionText := none,
                       lines := [] }] }]
        ⟨.addEOFNL, ['x'], none, some 1⟩).map
        (fun f => (f.stats.additions, countKind .addition f.hunks,
                   (f.hunks.map fun h => h.lines.length).sum)) = [(1, 1, 1)] := by
  exact ⟨rfl, by decide⟩

/-- C2 (amended): the three ordinary origin codes map to Context, Addition
and Deletion respectively; the EOFNL variants map to the same three kinds
(and therefore produce `DiffLine`s and affect the counters like ordinary
lines); only the structural codes — binary marker, file header, hunk
header — produce no `DiffLine` and leave the file unchanged. For a mapped
code on a non-binary file with an open hunk, exactly the matching counter
is incremented and one line of that kind is appended. -/
theorem c2_line_kind_mapping :
    (convertLineKind .context = some .context ∧
     convertLineKind .contextEOFNL = some .context ∧
     convertLineKind .addition = some .addition ∧
     convertLineKind .addEOFNL = some .addition ∧
     convertLineKind .deletion = some .deletion ∧
     convertLineKind .deleteEOFNL = some .deletion ∧
     convertLineKind .binaryMarker = none ∧
     convertLineKind .fileHeader = none ∧
     convertLineKind .hunkHeader = none) ∧
    (∀ (files : List DiffFile) (l : LineInfo),
      convertLineKind l.origin = none → pushLine files l = files) ∧
    (∀ (file : DiffFile) (l : LineInfo) (kind : DiffLineKind),
      convertLineKind l.origin = some kind → file.isBinary = false →
      file.hunks ≠ [] →
      (pushLineFile l file).stats.additions =
          file.stats.additions + (if kind = .addition then 1 else 0) ∧
        (pushLineFile l file).stats.deletions =
          file.stats.deletions + (if kind = .deletion then 1 else 0) ∧
        countKind kind (pushLineFile l file).hunks =
          countKind kind file.hunks + 1) := by
  refine ⟨⟨rfl, rfl, rfl, rfl, rfl, rfl, rfl, rfl, rfl⟩, ?_, ?_⟩
  · intro files l h
    exact modifyLast_eq_self (fun x _ => pushLineFile_none x h)
  · intro file l kind hck hnb hne
    rw [pushLineFile_some file hck hnb hne]
    refine ⟨by simp, by simp, ?_⟩
    simp only [countKind_modifyLast_append _ _ _ hne]
    simp [mkPushedLine]

/-- Witness for C2's amended theorem: a `DeleteEOFNL` line on a non-binary
file with one open hunk. -/
theorem c2_line_kind_mapping_witness :
    (pushLineFile ⟨.deleteEOFNL, ['x'], some 1, none⟩
        { path := "f.txt", oldPath := none, status := .modified,
          stats := ⟨0, 0⟩, isBinary := false,
          hunks := [{ header := ⟨1, 1, 1, 1⟩, sectionText := none,
                      lines := [] }] }).stats.additions =
        (({ path := "f.txt", oldPath := none, status := .modified,
            stats := ⟨0, 0⟩, isBinary := false,
            hunks := [{ header := ⟨1, 1, 1, 1⟩, sectionText := none,
                        lines := [] }] } : DiffFile)).stats.additions +
          (if DiffLineKind.deletion = .addition then 1 else 0) ∧
      (pushLineFile ⟨.deleteEOFNL, ['x'], some 1, none⟩
        { path := "f.txt", oldPath := none, status := .modified,
          stats := ⟨0, 0⟩, isBinary := false,
          hunks := [{ header := ⟨1, 1, 1, 1⟩, sectionText := none,
                      lines := [] }] }).stats.deletions =
        (({ path := "f.txt", oldPath := none, status := .modified,
            stats := ⟨0, 0⟩, isBinary := false,
            hunks := [{ header := ⟨1, 1, 1, 1⟩, sectionText := none,
                        lines := [] }] } : DiffFile)).stats.deletions +
          (if DiffLineKind.deletion = .deletion then 1 else 0) ∧
      countKind .deletion
        (pushLineFile ⟨.deleteEOFNL, ['x'], some 1, none⟩
          { path := "f.txt", oldPath := none, status := .modified,
            stats := ⟨0, 0⟩, isBinary := false,
            hunks := [{ header := ⟨1, 1, 1, 1⟩, sectionText := none,
                        lines := [] }] }).hunks =
        countKind .deletion
          (({ path := "f.txt", oldPath := none, status := .modified,
              stats := ⟨0, 0⟩, isBinary := false,
              hunks := [{ header := ⟨1, 1, 1, 1⟩, sectionText := none,
                          lines := [] }] } : DiffFile)).hunks + 1 :=
  c2_line_kind_mapping.2.2
    { path := "f.txt", oldPath := none, status := .modified,
      stats := ⟨0, 0⟩, isBinary := false,
      hunks := [{ header := ⟨1, 1, 1, 1⟩, sectionText := none, lines := [] }] }
    ⟨.deleteEOFNL, ['x'], some 1, none⟩ .deletion rfl rfl (by decide)

lemma splitAtByte_zero (cs : List Char) : splitAtByte cs 0 = some ([], cs) := by
  cases cs <;> rfl

lemma splitAtByte_succ (c : Char) (cs : List Char) (b : Nat) (hb : 1 ≤ b) :
    splitAtByte (c :: cs) b =
      if c.utf8Size ≤ b then
        (splitAtByte cs (b - c.utf8Size)).map (fun p => (c :: p.1, p.2))
      else none := by
  obtain ⟨b', rfl⟩ : ∃ b', b = b' + 1 := ⟨b - 1, by omega⟩
  rfl

lemma splitAtByte_eq {cs : List Char} {b : Nat} {p r : List Char}
    (h : splitAtByte cs b = some (p, r)) : cs = p ++ r ∧ utf8Len p = b := by
  induction cs generalizing b p r with
  | nil =>
    cases b with
    | zero =>
      rw [splitAtByte_zero] at h
      obtain ⟨rfl, rfl⟩ : p = [] ∧ r = [] := by
        constructor <;> · injection h with h'; cases h'; rfl
      exact ⟨rfl, rfl⟩
    | succ b' => exact absurd h (by simp [splitAtByte])
  | cons c cs ih =>
    cases b with
    | zero =>
      rw [splitAtByte_zero] at h
      obtain ⟨rfl, rfl⟩ : p = [] ∧ r = c :: cs := by
        constructor <;> · injection h with h'; cases h'; rfl
      exact ⟨rfl, rfl⟩
    | succ b' =>
      rw [splitAtByte_succ c cs (b' + 1) (by omega)] at h
      by_cases hsz : c.utf8Size ≤ b' + 1
      · rw [if_pos hsz] at h
        cases hq : splitAtByte cs (b' + 1 - c.utf8Size) with
        | none => rw [hq] at h; cases h
        | some q =>
          rw [hq] at h
          obtain ⟨rfl, rfl⟩ : p = c :: q.1 ∧ r = q.2 := by
            constructor <;> · injection h with h'; cases h'; rfl
          obtain ⟨hcs, hlen⟩ := ih hq
          refine ⟨by rw [hcs]; rfl, ?_⟩
          simp only [utf8Len, List.map_cons, List.sum_cons] at *
          omega
      · rw [if_neg hsz] at h; cases h

lemma splitAtByte_add {cs : List Char} {a : Nat} {p r : List Char}
    (h : splitAtByte cs a = some (p, r)) (k : Nat) :
    splitAtByte cs (a + k) = (splitAtByte r k).map (fun q => (p ++ q.1, q.2)) := by
  induction cs generalizing a p r with
  | nil =>
    cases a with
    | zero =>
      rw [splitAtByte_zero] at h
      obtain ⟨rfl, rfl⟩ : p = [] ∧ r = [] := by
        constructor <;> · injection h with h'; cases h'; rfl
      cases k with
      | zero => simp [splitAtByte_zero]
      | succ k' => simp [splitAtByte]
    | succ a' => exact absurd h (by simp [splitAtByte])
  | cons c cs ih =>
    cases a with
    | zero =>
      rw [splitAtByte_zero] at h
      obtain ⟨rfl, rfl⟩ : p = [] ∧ r = c :: cs := by
        constructor <;> · injection h with h'; cases h'; rfl
      simp only [Nat.zero_add, List.nil_append]
      cases hq : splitAtByte (c :: cs) k <;> simp
    | succ a' =>
      rw [splitAtByte_succ c cs (a' + 1) (by omega)] at h
      by_cases hsz : c.utf8Size ≤ a' + 1
      · rw [if_pos hsz] at h
        cases hq : splitAtByte cs (a' + 1 - c.utf8Size) with
        | none => rw [hq] at h; cases h
        | some q =>
          rw [hq] at h
          obtain ⟨rfl, rfl⟩ : p = c :: q.1 ∧ r = q.2 := by
            constructor <;> · injection h with h'; cases h'; rfl
          rw [show a' + 1 + k = (a' + k) + 1 from by omega,
            splitAtByte_succ c cs ((a' + k) + 1) (by omega),
            if_pos (by omega)]
          rw [show (a' + k) + 1 - c.utf8Size = (a' + 1 - c.utf8Size) + k from by omega]
          rw [ih hq]
          cases splitAtByte q.2 k <;> simp
      · rw [if_neg hsz] at h; cases h

lemma splitAtByte_append (xs ys : List Char) :
    splitAtByte (xs ++ ys) (utf8Len xs) = some (xs, ys) := by
  induction xs with
  | nil => simpa [utf8Len] using splitAtByte_zero ys
  | cons c cs ih =>
    have hsz := Char.utf8Size_pos c
    have hlen : utf8Len (c :: cs) = c.utf8Size + utf8Len cs := by
      simp [utf8Len]
    rw [List.cons_append, hlen,
      splitAtByte_succ c (cs ++ ys) (c.utf8Size + utf8Len cs) (by omega),
      if_pos (by omega),
      show c.utf8Size + utf8Len cs - c.utf8Size = utf8Len cs from by omega, ih]
    rfl

lemma splitAtByte_utf8Len (cs : List Char) :
    splitAtByte cs (utf8Len cs) = some (cs, []) := by
  simpa using splitAtByte_append cs []

lemma lineStartsAux_mem_facts {cs : List Char} {i s : Nat}
    (hs : s ∈ lineStartsAux cs i) :
    i + 1 ≤ s ∧ s ≤ i + utf8Len cs ∧ (splitAtByte cs (s - i)).isSome := by
  induction cs generalizing i with
  | nil => simp [lineStartsAux] at hs
  | cons c cs ih =>
    have hsz := Char.utf8Size_pos c
    have hlen : utf8Len (c :: cs) = c.utf8Size + utf8Len cs := by
      simp [utf8Len]
    simp only [lineStartsAux] at hs
    by_cases hc : c = '\n'
    · rw [if_pos hc] at hs
      rcases List.mem_cons.mp hs with rfl | hs
      · have hone : c.utf8Size = 1 := by subst hc; decide
        refine ⟨le_refl _, by omega, ?_⟩
        rw [show i + 1 - i = 1 from by omega,
          splitAtByte_succ c cs 1 (by omega), if_pos (by omega),
          show 1 - c.utf8Size = 0 from by omega, splitAtByte_zero]
        rfl
      · obtain ⟨h1, h2, h3⟩ := ih hs
        refine ⟨by omega, by omega, ?_⟩
        rw [splitAtByte_succ c cs (s - i) (by omega), if_pos (by omega),
          show s - i - c.utf8Size = s - (i + c.utf8Size) from by omega]
        obtain ⟨q, hq⟩ := Option.isSome_iff_exists.mp h3
        rw [hq]
        rfl
    · rw [if_neg hc] at hs
      obtain ⟨h1, h2, h3⟩ := ih hs
      refine ⟨by omega, by omega, ?_⟩
      rw [splitAtByte_succ c cs (s - i) (by omega), if_pos (by omega),
        show s - i - c.utf8Size = s - (i + c.utf8Size) from by omega]
      obtain ⟨q, hq⟩ := Option.isSome_iff_exists.mp h3
      rw [hq]
      rfl

lemma lineStartsAux_length (cs : List Char) (i : Nat) :
    (lineStartsAux cs i).length = cs.count '\n' := by
  induction cs generalizing i with
  | nil => rfl
  | cons c cs ih =>
    simp only [lineStartsAux]
    by_cases hc : c = '\n' <;>
      simp [hc, ih, List.count_cons]

lemma lineStartsAux_getLast :
    ∀ (cs : List Char) (i : Nat), cs.getLast? = some '\n' →
      (lineStartsAux cs i).getLast? = some (i + utf8Len cs) := by
  intro cs
  induction cs with
  | nil => intro i h; simp at h
  | cons c cs ih =>
    intro i h
    cases cs with
    | nil =>
      simp at h
      subst h
      simp [lineStartsAux, utf8Len]
      decide
    | cons d ds =>
      have h' : (d :: ds).getLast? = some '\n' := by
        rwa [List.getLast?_cons_cons] at h
      have hlast := ih (i + c.utf8Size) h'
      have hne : lineStartsAux (d :: ds) (i + c.utf8Size) ≠ [] := by
        intro hnil
        rw [hnil] at hlast
        cases hlast
      have harith : i + c.utf8Size + utf8Len (d :: ds) = i + utf8Len (c :: d :: ds) := by
        simp [utf8Len]
        omega
      obtain ⟨x, xs, hxx⟩ := List.exists_cons_of_ne_nil hne
      have hstep : lineStartsAux (c :: d :: ds) i =
          if c = '\n' then (i + 1) :: lineStartsAux (d :: ds) (i + c.utf8Size)
          else lineStartsAux (d :: ds) (i + c.utf8Size) := rfl
      rw [hstep]
      by_cases hc : c = '\n'
      · rw [if_pos hc, hxx, List.getLast?_cons_cons, ← hxx, hlast, harith]
      · rw [if_neg hc, hlast, harith]

lemma lineStarts_length (text : List Char) :
    (lineStarts text).length = text.count '\n' + 1 := by
  simp [lineStarts, lineStartsAux_length]

lemma mem_lineStarts_facts {text : List Char} {s : Nat}
    (hs : s ∈ lineStarts text) :
    s ≤ utf8Len text ∧ (splitAtByte text s).isSome := by
  rcases List.mem_cons.mp hs with rfl | hs
  · exact ⟨Nat.zero_le _, by rw [splitAtByte_zero]; rfl⟩
  · obtain ⟨h1, h2, h3⟩ := lineStartsAux_mem_facts hs
    refine ⟨by omega, ?_⟩
    simpa using h3

lemma lineStarts_pairwise (text : List Char) :
    List.Pairwise (· < ·) (lineStarts text) := by
  have haux : ∀ (cs : List Char) (i : Nat),
      List.Pairwise (· < ·) (lineStartsAux cs i) := by
    intro cs
    induction cs with
    | nil => intro i; simp [lineStartsAux]
    | cons c cs ih =>
      intro i
      simp only [lineStartsAux]
      have hsz := Char.utf8Size_pos c
      by_cases hc : c = '\n'
      · rw [if_pos hc]
        refine List.pairwise_cons.mpr ⟨?_, ih _⟩
        intro s hs
        have := lineStartsAux_mem_facts hs
        omega
      · rw [if_neg hc]
        exact ih _
  refine List.pairwise_cons.mpr ⟨?_, haux text 0⟩
  intro s hs
  have := lineStartsAux_mem_facts hs
  omega

lemma lineStarts_getD_lt (text : List Char) {i j : Nat}
    (hj : j < (lineStarts text).length) (hij : i < j) :
    (lineStarts text).getD i 0 < (lineStarts text).getD j 0 := by
  have hi : i < (lineStarts text).length := lt_trans hij hj
  rw [List.getD_eq_getElem _ _ hi, List.getD_eq_getElem _ _ hj]
  exact List.pairwise_iff_getElem.mp (lineStarts_pairwise text) i j hi hj hij

lemma lineStarts_getD_mem (text : List Char) {i : Nat}
    (hi : i < (lineStarts text).length) :
    (lineStarts text).getD i 0 ∈ lineStarts text := by
  rw [List.getD_eq_getElem _ _ hi]
  exact List.getElem_mem hi

lemma lineSpan_facts (text : List Char) (idx : Nat)
    (hidx : idx < (lineStarts text).length) :
    lineStartOf text idx ≤ lineEndOf text idx ∧
      lineEndOf text idx ≤ utf8Len text ∧
      (splitAtByte text (lineStartOf text idx)).isSome ∧
      (splitAtByte text (lineEndOf text idx)).isSome := by
  have hstart := mem_lineStarts_facts (lineStarts_getD_mem text hidx)
  unfold lineStartOf lineEndOf
  by_cases hj : idx + 1 < (lineStarts text).length
  · rw [if_pos hj]
    have hlt := lineStarts_getD_lt text hj (Nat.lt_succ_self idx)
    have hend := mem_lineStarts_facts (lineStarts_getD_mem text hj)
    exact ⟨le_of_lt hlt, hend.1, hstart.2, hend.2⟩
  · rw [if_neg hj]
    refine ⟨hstart.1, le_refl _, hstart.2, ?_⟩
    rw [splitAtByte_utf8Len]
    rfl

lemma lineSlice_facts (text : List Char) (idx : Nat)
    (hidx : idx < (lineStarts text).length) :
    ∃ pre post,
      splitAtByte text (lineStartOf text idx) =
        some (pre, lineSlice text idx ++ post) ∧
      utf8Len (lineSlice text idx) = lineEndOf text idx - lineStartOf text idx := by
  obtain ⟨hab, _, hsa, hsb⟩ := lineSpan_facts text idx hidx
  obtain ⟨⟨pre, rest⟩, hpre⟩ := Option.isSome_iff_exists.mp hsa
  have hadd := splitAtByte_add hpre (lineEndOf text idx - lineStartOf text idx)
  rw [show lineStartOf text idx + (lineEndOf text idx - lineStartOf text idx) =
      lineEndOf text idx from by omega] at hadd
  obtain ⟨w, hw⟩ := Option.isSome_iff_exists.mp hsb
  rw [hw] at hadd
  cases hq : splitAtByte rest (lineEndOf text idx - lineStartOf text idx) with
  | none => rw [hq] at hadd; cases hadd
  | some q =>
    obtain ⟨q1, q2⟩ := q
    obtain ⟨hrest, hlen⟩ := splitAtByte_eq hq
    have hslice : lineSlice text idx = q1 := by
      unfold lineSlice sliceBytes
      rw [hpre]
      dsimp only
      rw [hq]
    refine ⟨pre, q2, ?_, ?_⟩
    · rw [hpre, hslice, ← hrest]
    · rw [hslice, hlen]

lemma offsetLoop_spec (slice : List Char) (base col target ln lineEnd : Nat)
    (h : col ≤ target) :
    offsetLoop slice base col target ln lineEnd =
      if target - col < slice.length then
        .ok (base + utf8Len (slice.take (target - col)))
      else if target - col = slice.length then .ok lineEnd
      else .error (.columnOutOfBounds "" ln target) := by
  induction slice generalizing base col with
  | nil =>
    simp only [offsetLoop, List.length_nil]
    by_cases hcol : col = target
    · subst hcol
      simp
    · have hne : target - col ≠ 0 := by omega
      simp [hcol, hne, Ne.symm hcol]
  | cons c cs ih =>
    simp only [offsetLoop]
    by_cases hcol : col = target
    · subst hcol
      simp [utf8Len]
    · rw [if_neg hcol, ih (base + c.utf8Size) (col + 1) (by omega)]
      have hd : target - col = (target - (col + 1)) + 1 := by omega
      rw [hd]
      by_cases h1 : target - (col + 1) < cs.length
      · rw [if_pos h1, if_pos (by simpa using h1)]
        simp [utf8Len, Nat.add_assoc]
      · rw [if_neg h1]
        by_cases h2 : target - (col + 1) = cs.length
        · rw [if_pos h2, if_neg (by simp; omega), if_pos (by simp [h2])]
        · rw [if_neg h2, if_neg (by simp; omega), if_neg (by simp; omega)]

lemma offsetLoop_lt (slice : List Char) (base col target ln lineEnd : Nat)
    (h : target < col) :
    offsetLoop slice base col target ln lineEnd =
      .error (.columnOutOfBounds "" ln target) := by
  induction slice generalizing base col with
  | nil =>
    simp only [offsetLoop]
    rw [if_neg (by omega)]
  | cons c cs ih =>
    simp only [offsetLoop]
    rw [if_neg (by omega), ih (base + c.utf8Size) (col + 1) (by omega)]

lemma utf8Len_eq_zero {cs : List Char} (h : utf8Len cs = 0) : cs = [] := by
  cases cs with
  | nil => rfl
  | cons c cs =>
    exfalso
    have hsz := Char.utf8Size_pos c
    simp [utf8Len] at h
    omega

lemma offset_line_zero (text : List Char) (col : Option Nat) :
    offset text ⟨0, col⟩ = .error (.lineOutOfBounds "" 0) := rfl

lemma offset_line_oob (text : List Char) (L : Nat) (col : Option Nat)
    (hL : L ≠ 0) (hgt : L - 1 > (lineStarts text).length) :
    offset text ⟨L, col⟩ = .error (.lineOutOfBounds "" L) := by
  simp only [offset]
  rw [if_neg hL, if_pos hgt]

lemma offset_virtual (text : List Char) (L : Nat) (col : Option Nat)
    (hL : L ≠ 0) (heq : L - 1 = (lineStarts text).length) :
    offset text ⟨L, col⟩ =
      if col.getD 1 = 1 then .ok (utf8Len text)
      else .error (.columnOutOfBounds "" L (col.getD 0)) := by
  simp only [offset]
  rw [if_neg hL, if_neg (by omega), if_pos heq]

lemma offset_cases (text : List Char) (L : Nat) (col : Option Nat)
    (hL : L ≠ 0) (hidx : L - 1 < (lineStarts text).length) :
    offset text ⟨L, col⟩ =
      if col.getD 1 = 1 then .ok (lineStartOf text (L - 1))
      else
        offsetLoop (lineSlice text (L - 1)) (lineStartOf text (L - 1)) 1
          (col.getD 1) L (lineEndOf text (L - 1)) := by
  simp only [offset]
  rw [if_neg hL, if_neg (by omega), if_neg (by omega)]
  unfold lineSlice lineStartOf lineEndOf
  rfl

lemma offset_col1 (text : List Char) (L : Nat) (col : Option Nat)
    (hL : L ≠ 0) (hidx : L - 1 < (lineStarts text).length)
    (hcol : col.getD 1 = 1) :
    offset text ⟨L, col⟩ = .ok (lineStartOf text (L - 1)) := by
  rw [offset_cases text L col hL hidx, if_pos hcol]

lemma offset_colge2 (text : List Char) (L C : Nat)
    (hL : L ≠ 0) (hidx : L - 1 < (lineStarts text).length) (hC : 2 ≤ C) :
    offset text ⟨L, some C⟩ =
      if C - 1 ≤ (lineSlice text (L - 1)).length then
        .ok (lineStartOf text (L - 1) +
          utf8Len ((lineSlice text (L - 1)).take (C - 1)))
      else .error (.columnOutOfBounds "" L C) := by
  rw [offset_cases text L (some C) hL hidx]
  simp only [Option.getD_some]
  rw [if_neg (by omega), offsetLoop_spec _ _ _ _ _ _ (by omega)]
  obtain ⟨hab, _, _, _⟩ := lineSpan_facts text (L - 1) hidx
  obtain ⟨pre, post, hpre, hlen⟩ := lineSlice_facts text (L - 1) hidx
  by_cases h1 : C - 1 < (lineSlice text (L - 1)).length
  · rw [if_pos h1, if_pos (le_of_lt h1)]
  · by_cases h2 : C - 1 = (lineSlice text (L - 1)).length
    · rw [if_neg h1, if_pos h2, if_pos (by omega), h2, List.take_length]
      rw [hlen]
      congr 1
      omega
    · rw [if_neg h1, if_neg h2, if_neg (by omega)]

lemma isBoundary_prefix_add {text pre slice post : List Char} {a : Nat}
    (hpre : splitAtByte text a = some (pre, slice ++ post)) (d : Nat) :
    (splitAtByte text (a + utf8Len (slice.take d))).isSome := by
  rw [splitAtByte_add hpre (utf8Len (slice.take d))]
  have hdec : slice ++ post = slice.take d ++ (slice.drop d ++ post) := by
    rw [← List.append_assoc, List.take_append_drop]
  rw [hdec, splitAtByte_append]
  rfl

lemma offset_ok_boundary {text : List Char} {pos : Position} {n : Nat}
    (h : offset text pos = .ok n) : (splitAtByte text n).isSome := by
  obtain ⟨L, col⟩ := pos
  by_cases hL : L = 0
  · subst hL
    rw [offset_line_zero] at h
    cases h
  · by_cases hgt : L - 1 > (lineStarts text).length
    · rw [offset_line_oob text L col hL hgt] at h
      cases h
    · by_cases heq : L - 1 = (lineStarts text).length
      · rw [offset_virtual text L col hL heq] at h
        by_cases hcol : col.getD 1 = 1
        · rw [if_pos hcol] at h
          injection h with h'
          subst h'
          rw [splitAtByte_utf8Len]
          rfl
        · rw [if_neg hcol] at h
          cases h
      · have hidx : L - 1 < (lineStarts text).length := by omega
        obtain ⟨hab, _, hsa, hsb⟩ := lineSpan_facts text (L - 1) hidx
        by_cases hcol : col.getD 1 = 1
        · rw [offset_col1 text L col hL hidx hcol] at h
          injection h with h'
          subst h'
          exact hsa
        · rw [offset_cases text L col hL hidx, if_neg hcol] at h
          by_cases htz : col.getD 1 < 1
          · rw [offsetLoop_lt _ _ _ _ _ _ htz] at h
            cases h
          · rw [offsetLoop_spec _ _ _ _ _ _ (by omega)] at h
            obtain ⟨pre, post, hpre, hlen⟩ := lineSlice_facts text (L - 1) hidx
            by_cases h1 : col.getD 1 - 1 < (lineSlice text (L - 1)).length
            · rw [if_pos h1] at h
              injection h with h'
              subst h'
              exact isBoundary_prefix_add hpre _
            · rw [if_neg h1] at h
              by_cases h2 : col.getD 1 - 1 = (lineSlice text (L - 1)).length
              · rw [if_pos h2] at h
                injection h with h'
                subst h'
                exact hsb
              · rw [if_neg h2] at h
                cases h

lemma lineStartOf_last {text : List Char} (hlast : text.getLast? = some '\n') :
    lineStartOf text (text.count '\n') = utf8Len text := by
  have hcount : 1 ≤ text.count '\n' :=
    List.count_pos_iff.mpr (List.mem_of_mem_getLast? hlast)
  have haux := lineStartsAux_getLast text 0 hlast
  have hauxlen : (lineStartsAux text 0).length = text.count '\n' :=
    lineStartsAux_length text 0
  obtain ⟨c1, hc1⟩ : ∃ c1, text.count '\n' = c1 + 1 :=
    ⟨text.count '\n' - 1, by omega⟩
  unfold lineStartOf
  show (0 :: lineStartsAux text 0).getD (text.count '\n') 0 = utf8Len text
  rw [hc1, List.getD_cons_succ, List.getD_eq_getElem _ _ (by omega)]
  have hgl := (List.getLast?_eq_getElem? (lineStartsAux text 0)).symm.trans haux
  rw [hauxlen, hc1, Nat.add_sub_cancel] at hgl
  rw [List.getElem?_eq_getElem (by omega)] at hgl
  have := Option.some.inj hgl
  omega

lemma lineSlice_last {text : List Char} (hlast : text.getLast? = some '\n') :
    lineSlice text (text.count '\n') = [] := by
  have hidx : text.count '\n' < (lineStarts text).length := by
    rw [lineStarts_length]
    omega
  obtain ⟨pre, post, hpre, hlen⟩ := lineSlice_facts text (text.count '\n') hidx
  have hend : lineEndOf text (text.count '\n') = utf8Len text := by
    unfold lineEndOf
    rw [if_neg (by rw [lineStarts_length]; omega)]
  rw [hend, lineStartOf_last hlast, Nat.sub_self] at hlen
  exact utf8Len_eq_zero hlen

/-- C1: converting a `Position` walks the line-start table — line 0 is
`LineOutOfBounds`; on a recorded line, column 1 returns the line's start
offset, and column C > 1 advances C − 1 Unicode scalars through the line's
byte span, one past the last scalar being valid (the line's end offset) and
anything beyond `ColumnOutOfBounds`; on a fully newline-terminated N-line
file, `Position{line: N+1, column: 1}` resolves to the total byte length
and `Position{line: N+1, column: 2}` is `ColumnOutOfBounds`. -/
theorem c1_position_offset_conversion (text : List Char) (L C : Nat) :
    (∀ col, offset text ⟨0, col⟩ = .error (.lineOutOfBounds "" 0)) ∧
    (1 ≤ L → L - 1 < (lineStarts text).length →
      offset text ⟨L, some 1⟩ = .ok (lineStartOf text (L - 1))) ∧
    (1 ≤ L → L - 1 < (lineStarts text).length → 2 ≤ C →
      offset text ⟨L, some C⟩ =
        if C - 1 ≤ (lineSlice text (L - 1)).length then
          .ok (lineStartOf text (L - 1) +
            utf8Len ((lineSlice text (L - 1)).take (C - 1)))
        else .error (.columnOutOfBounds "" L C)) ∧
    (text.getLast? = some '\n' →
      offset text ⟨text.count '\n' + 1, some 1⟩ = .ok (utf8Len text) ∧
      offset text ⟨text.count '\n' + 1, some 2⟩ =
        .error (.columnOutOfBounds "" (text.count '\n' + 1) 2)) := by
  refine ⟨fun col => offset_line_zero text col, ?_, ?_, ?_⟩
  · intro hL hidx
    exact offset_col1 text L (some 1) (by omega) hidx rfl
  · intro hL hidx hC
    exact offset_colge2 text L C (by omega) hidx hC
  · intro hlast
    have hidx : (text.count '\n' + 1) - 1 < (lineStarts text).length := by
      rw [lineStarts_length]
      omega
    constructor
    · rw [offset_col1 text (text.count '\n' + 1) (some 1) (by omega) hidx rfl]
      rw [show text.count '\n' + 1 - 1 = text.count '\n' from by omega]
      rw [lineStartOf_last hlast]
    · rw [offset_colge2 text (text.count '\n' + 1) 2 (by omega) hidx (by omega)]
      rw [show text.count '\n' + 1 - 1 = text.count '\n' from by omega]
      rw [lineSlice_last hlast]
      rfl

/-- Witness for C1 on the two-line file `"ab\ncd\n"`. -/
theorem c1_position_offset_conversion_witness :
    offset ('a' :: 'b' :: '\n' :: 'c' :: 'd' :: '\n' :: []) ⟨2, some 1⟩ =
        .ok (lineStartOf ('a' :: 'b' :: '\n' :: 'c' :: 'd' :: '\n' :: []) 1) ∧
      (offset ('a' :: 'b' :: '\n' :: 'c' :: 'd' :: '\n' :: [])
          ⟨('a' :: 'b' :: '\n' :: 'c' :: 'd' :: '\n' :: []).count '\n' + 1, some 1⟩ =
        .ok (utf8Len ('a' :: 'b' :: '\n' :: 'c' :: 'd' :: '\n' :: [])) ∧
      offset ('a' :: 'b' :: '\n' :: 'c' :: 'd' :: '\n' :: [])
          ⟨('a' :: 'b' :: '\n' :: 'c' :: 'd' :: '\n' :: []).count '\n' + 1, some 2⟩ =
        .error (.columnOutOfBounds ""
          (('a' :: 'b' :: '\n' :: 'c' :: 'd' :: '\n' :: []).count '\n' + 1) 2)) :=
  ⟨(c1_position_offset_conversion ('a' :: 'b' :: '\n' :: 'c' :: 'd' :: '\n' :: []) 2 2).2.1
      (by decide) (by decide),
   (c1_position_offset_conversion ('a' :: 'b' :: '\n' :: 'c' :: 'd' :: '\n' :: []) 2 2).2.2.2
      (by decide)⟩

/-- C9: every byte offset the converter returns is a UTF-8 character
boundary of the text (or its total byte length), and splicing any validated
`[start, stop)` range obtained from `span` cannot panic. -/
theorem c9_offsets_are_boundaries (text : List Char) :
    (∀ (pos : Position) (n : Nat),
      offset text pos = .ok n → (splitAtByte text n).isSome = true) ∧
    (∀ (fr : FileRange) (s e : Nat) (repl : List Char),
      span text fr = .ok (s, e) → (replaceRange text s e repl).isSome = true) := by
  refine ⟨fun pos n h => offset_ok_boundary h, ?_⟩
  intro fr s e repl h
  unfold span at h
  by_cases hside : fr.side ≠ DiffSide.head
  · rw [if_pos hside] at h
    cases h
  · rw [if_neg hside] at h
    cases h1 : offset text fr.range.start with
    | error e1 => rw [h1] at h; cases h
    | ok s' =>
      rw [h1] at h
      cases h2 : offset text fr.range.stop with
      | error e2 => rw [h2] at h; cases h
      | ok e' =>
        rw [h2] at h
        dsimp only at h
        by_cases h3 : s' > e'
        · rw [if_pos h3] at h
          cases h
        · rw [if_neg h3] at h
          injection h with h'
          have hs : s' = s := congrArg Prod.fst h'
          have he : e' = e := congrArg Prod.snd h'
          subst hs
          subst he
          unfold replaceRange
          rw [if_neg (by omega)]
          obtain ⟨⟨p, r⟩, hp⟩ := Option.isSome_iff_exists.mp (offset_ok_boundary h1)
          rw [hp]
          dsimp only
          have hadd := splitAtByte_add hp (e' - s')
          rw [show s' + (e' - s') = e' from by omega] at hadd
          obtain ⟨w, hw⟩ := Option.isSome_iff_exists.mp (offset_ok_boundary h2)
          rw [hw] at hadd
          cases hq : splitAtByte r (e' - s') with
          | none =>
            rw [hq] at hadd
            simp at hadd
          | some q =>
            obtain ⟨q1, q2⟩ := q
            rfl

/-- Witness for C9 on a concrete multibyte text and validated span. -/
theorem c9_offsets_are_boundaries_witness :
    (splitAtByte ('é' :: 'x' :: '\n' :: []) 2).isSome = true ∧
      (replaceRange ('é' :: 'x' :: '\n' :: []) 2 3 ('y' :: [])).isSome = true :=
  ⟨(c9_offsets_are_boundaries ('é' :: 'x' :: '\n' :: [])).1 ⟨1, some 2⟩ 2 rfl,
   (c9_offsets_are_boundaries ('é' :: 'x' :: '\n' :: [])).2
      ⟨"a.txt", .head, ⟨⟨1, some 2⟩, ⟨1, some 3⟩⟩⟩ 2 3 ('y' :: []) rfl⟩

/-- C10: an omitted column behaves exactly like column 1 — the conversion
returns the same offset or the same error for `column = none` and
`column = some 1`. -/
theorem c10_none_column_is_column_one (text : List Char) (L : Nat) :
    offset text ⟨L, none⟩ = offset text ⟨L, some 1⟩ := by
  unfold offset
  simp

lemma ensureNonOverlapping_ok_iff (path : String) (reps : List Replacement) :
    ensureNonOverlapping path reps = .ok () ↔
      List.Chain' (fun a b => a.stop ≤ b.start) reps := by
  induction reps with
  | nil => simp [ensureNonOverlapping]
  | cons a rest ih =>
    cases rest with
    | nil => simp [ensureNonOverlapping]
    | cons b rest' =>
      by_cases h : a.stop > b.start
      · have hdef : ensureNonOverlapping path (a :: b :: rest') =
            .error (.overlappingEdits path) := by
          unfold ensureNonOverlapping
          rw [if_pos h]
        rw [hdef, List.chain'_cons]
        constructor
        · intro hc; cases hc
        · intro hc; exact absurd hc.1 (by omega)
      · have hdef : ensureNonOverlapping path (a :: b :: rest') =
            ensureNonOverlapping path (b :: rest') := by
          conv_lhs => simp only [ensureNonOverlapping]
          rw [if_neg h]
        rw [hdef, List.chain'_cons, ih]
        simp [show a.stop ≤ b.start from by omega]

lemma ensureNonOverlapping_error_iff (path : String) (reps : List Replacement) :
    ensureNonOverlapping path reps = .error (.overlappingEdits path) ↔
      ¬ List.Chain' (fun a b => a.stop ≤ b.start) reps := by
  induction reps with
  | nil => simp [ensureNonOverlapping, List.chain'_nil]
  | cons a rest ih =>
    cases rest with
    | nil => simp [ensureNonOverlapping]
    | cons b rest' =>
      by_cases h : a.stop > b.start
      · have hdef : ensureNonOverlapping path (a :: b :: rest') =
            .error (.overlappingEdits path) := by
          unfold ensureNonOverlapping
          rw [if_pos h]
        rw [hdef, List.chain'_cons]
        simp
        intro hc
        omega
      · have hdef : ensureNonOverlapping path (a :: b :: rest') =
            ensureNonOverlapping path (b :: rest') := by
          conv_lhs => simp only [ensureNonOverlapping]
          rw [if_neg h]
        rw [hdef, List.chain'_cons, ih]
        simp [show a.stop ≤ b.start from by omega]

/-- C5: on the start-sorted replacement list of a file, the edit set is
rejected with `OverlappingEdits` exactly when some consecutive pair has the
earlier end offset strictly past the later start offset; end-to-end
touching replacements are accepted. -/
theorem c5_overlap_rejection (path : String) (reps : List Replacement) :
    (ensureNonOverlapping path reps = .error (.overlappingEdits path) ↔
      ∃ (i : Nat) (h : i < reps.length - 1),
        (reps.get ⟨i + 1, by omega⟩).start < (reps.get ⟨i, by omega⟩).stop) ∧
    (ensureNonOverlapping path reps = .ok () ↔
      ∀ (i : Nat) (h : i < reps.length - 1),
        (reps.get ⟨i, by omega⟩).stop ≤ (reps.get ⟨i + 1, by omega⟩).start) := by
  constructor
  · rw [ensureNonOverlapping_error_iff, List.chain'_iff_get]
    simp only [not_forall, not_le]
  · rw [ensureNonOverlapping_ok_iff, List.chain'_iff_get]

/-- Witness for C5: two end-to-end touching replacements are accepted. -/
theorem c5_overlap_rejection_witness :
    ensureNonOverlapping "a.txt"
        [{ start := 0, stop := 2, replacement := [] },
         { start := 2, stop := 3, replacement := [] }] = .ok () :=
  (c5_overlap_rejection "a.txt"
      [{ start := 0, stop := 2, replacement := [] },
       { start := 2, stop := 3, replacement := [] }]).2.mpr (by decide)

lemma span_ok_side {text : List Char} {fr : FileRange} {v : Nat × Nat}
    (h : span text fr = .ok v) : fr.side = DiffSide.head := by
  unfold span at h
  by_cases hs : fr.side ≠ DiffSide.head
  · rw [if_pos hs] at h
    cases h
  · simpa using hs

lemma span_base {text : List Char} {fr : FileRange}
    (h : fr.side = DiffSide.base) :
    span text fr = .error (.unsupportedSide fr.path fr.side) := by
  unfold span
  rw [if_pos (by simp [h])]

lemma resolveSpans_ok_sides {text : List Char} {path : String}
    {edits : List TextEdit} {reps : List Replacement}
    (h : resolveSpans text path edits = .ok reps) :
    ∀ e ∈ edits, e.location.side = DiffSide.head := by
  induction edits generalizing reps with
  | nil => intro e he; simp at he
  | cons e0 rest ih =>
    intro e he
    unfold resolveSpans at h
    cases hs : span text e0.location with
    | error e1 => rw [hs] at h; cases h
    | ok v =>
      obtain ⟨st, sp⟩ := v
      rw [hs] at h
      dsimp only at h
      cases hrest : resolveSpans text path rest with
      | error e2 => rw [hrest] at h; cases h
      | ok reps' =>
        rw [hrest] at h
        rcases List.mem_cons.mp he with rfl | he'
        · exact span_ok_side hs
        · exact ih hrest e he'

/-- C6 counterexample: a Base-side edit on a missing file is reported as
`MissingFile`, not `UnsupportedSide` — the file's content is resolved
before the side check, refuting the claimed ordering (side validation
before the file-content lookup). -/
theorem c6_base_side_counterexample :
    dryRun (fun _ => none) (fun _ _ _ => .ok "")
        ⟨none, [⟨⟨"nope.txt", .base, ⟨⟨1, some 1⟩, ⟨1, some 1⟩⟩⟩, []⟩]⟩ =
      .error (.err (.missingFile "nope.txt")) ∧
    applySuggestion ⟨fun _ => none, []⟩
        ⟨none, [⟨⟨"nope.txt", .base, ⟨⟨1, some 1⟩, ⟨1, some 1⟩⟩⟩, []⟩]⟩ =
      (.error (.err (.missingFile "nope.txt")), ⟨fun _ => none, []⟩) :=
  ⟨rfl, rfl⟩

/-- C6 (amended): a file group containing a Base-side edit is always
rejected (so neither `dry_run` nor `apply` ever applies it); when the
path sanitizes, the file's content resolves, and the Base edit is the
group's first edit, the error is `UnsupportedSide`, raised before any
offset computation for that edit (its positions are arbitrary) — but after
the file-content lookup, a missing file being reported as `MissingFile`
instead. -/
theorem c6_base_side_rejection :
    (∀ (fs : FileSystem) (path : String) (edits : List TextEdit),
      (∃ e ∈ edits, e.location.side = DiffSide.base) →
      ∃ err, buildChange fs path edits = .error err) ∧
    (∀ (fs : FileSystem) (path : String) (text : List Char)
        (e : TextEdit) (rest : List TextEdit),
      sanitizePath path = .ok () →
      fs path = some text →
      e.location.side = DiffSide.base →
      buildChange fs path (e :: rest) =
        .error (.err (.unsupportedSide e.location.path DiffSide.base))) := by
  constructor
  · intro fs path edits hex
    unfold buildChange
    cases hsan : sanitizePath path with
    | error e0 => exact ⟨.err e0, rfl⟩
    | ok u =>
      dsimp only
      cases hfs : fs path with
      | none => exact ⟨.err (.missingFile path), rfl⟩
      | some original =>
        dsimp only
        cases hrs : resolveSpans original path edits with
        | error e1 => exact ⟨.err e1, rfl⟩
        | ok reps =>
          exfalso
          obtain ⟨e, he, hside⟩ := hex
          have hhead := resolveSpans_ok_sides hrs e he
          rw [hside] at hhead
          cases hhead
  · intro fs path text e rest hsan hfs hside
    unfold buildChange
    rw [hsan]
    dsimp only
    rw [hfs]
    dsimp only
    have hres : resolveSpans text path (e :: rest) =
        .error (withPath path (.unsupportedSide e.location.path e.location.side)) := by
      unfold resolveSpans
      rw [span_base hside]
    rw [hres, hside]
    rfl

/-- Witness for C6's amended theorem at a concrete Base-side edit. -/
theorem c6_base_side_rejection_witness :
    buildChange (fun p => if p = "a.txt" then some ('a' :: 'b' :: []) else none)
        "a.txt"
        (⟨⟨"a.txt", .base, ⟨⟨1, some 1⟩, ⟨1, some 1⟩⟩⟩, []⟩ :: []) =
      .error (.err (.unsupportedSide "a.txt" DiffSide.base)) :=
  c6_base_side_rejection.2
    (fun p => if p = "a.txt" then some ('a' :: 'b' :: []) else none)
    "a.txt" ('a' :: 'b' :: [])
    ⟨⟨"a.txt", .base, ⟨⟨1, some 1⟩, ⟨1, some 1⟩⟩⟩, []⟩ [] rfl rfl rfl

/-- C7: `apply` runs the complete validation of every targeted file before
writing anything, so any validation failure leaves the working tree
untouched; and path containment (`AbsolutePath` for absolute paths,
`PathTraversal` for parent-directory segments) is checked before any file
system access for that path (the result does not depend on the file
system). -/
theorem c7_validation_precedes_writes :
    (∀ (w : WorkTree) (s : Suggestion) (e : Failure),
      computeChanges w.fs s = .error e → applySuggestion w s = (.error e, w)) ∧
    (∀ (fs : FileSystem) (path : String) (edits : List TextEdit)
        (e : SuggestionError),
      sanitizePath path = .error e → buildChange fs path edits = .error (.err e)) ∧
    (∀ path : String,
      (path.data.head? = some '/' →
        sanitizePath path = .error (.absolutePath path)) ∧
      ((splitPath path).contains ('.' :: '.' :: []) = true →
        path.data.head? ≠ some '/' →
        sanitizePath path = .error (.pathTraversal path))) := by
  refine ⟨?_, ?_, ?_⟩
  · intro w s e h
    unfold applySuggestion
    rw [h]
  · intro fs path edits e h
    unfold buildChange
    rw [h]
  · intro path
    constructor
    · intro h
      unfold sanitizePath
      rw [if_pos h]
    · intro hdots hhead
      unfold sanitizePath
      rw [if_neg hhead, if_pos hdots]

/-- Witness for C7: an absolute-path edit makes `apply` fail with
`AbsolutePath` and leave the tree untouched, on a file system with no
files at all. -/
theorem c7_validation_precedes_writes_witness :
    applySuggestion ⟨fun _ => none, []⟩
        ⟨none, [⟨⟨"/etc/pw", .head, ⟨⟨1, some 1⟩, ⟨1, some 1⟩⟩⟩, []⟩]⟩ =
      (.error (.err (.absolutePath "/etc/pw")), ⟨fun _ => none, []⟩) :=
  c7_validation_precedes_writes.1 ⟨fun _ => none, []⟩
    ⟨none, [⟨⟨"/etc/pw", .head, ⟨⟨1, some 1⟩, ⟨1, some 1⟩⟩⟩, []⟩]⟩
    (.err (.absolutePath "/etc/pw")) rfl

lemma buildPreviews_paths {patchFn : PatchFn} {changes : List FileChange}
    {previews : List ApplyPreview}
    (h : buildPreviews patchFn changes = .ok previews) :
    previews.map (fun pv => pv.path) =
      (changes.filter fun c => !(c.original == c.updated)).map
        (fun c => c.path) := by
  induction changes generalizing previews with
  | nil =>
    unfold buildPreviews at h
    injection h with h'
    subst h'
    rfl
  | cons c rest ih =>
    unfold buildPreviews at h
    by_cases hc : c.original = c.updated
    · rw [if_pos hc] at h
      rw [ih h]
      simp [List.filter_cons, hc]
    · rw [if_neg hc] at h
      cases hp : patchFn c.path c.original c.updated with
      | error u => rw [hp] at h; cases h
      | ok patch =>
        rw [hp] at h
        cases hb : buildPreviews patchFn rest with
        | error e => rw [hb] at h; cases h
        | ok pvs =>
          rw [hb] at h
          injection h with h'
          subst h'
          simp [List.filter_cons, hc, ih hb]

lemma applyFold_fs_preserved (changes : List FileChange) (w : WorkTree)
    (p : String)
    (h : ∀ c ∈ changes, c.path = p → c.original = c.updated) :
    (changes.foldl
      (fun acc change =>
        if change.original = change.updated then acc
        else stagePath (writeFile acc change.path change.updated) change.path)
      w).fs p = w.fs p := by
  induction changes generalizing w with
  | nil => rfl
  | cons c rest ih =>
    simp only [List.foldl_cons]
    by_cases hc : c.original = c.updated
    · rw [if_pos hc]
      exact ih _ (fun d hd => h d (List.mem_cons_of_mem _ hd))
    · rw [if_neg hc]
      rw [ih _ (fun d hd => h d (List.mem_cons_of_mem _ hd))]
      have hne : p ≠ c.path := fun hpc => hc (h c (by simp) hpc.symm)
      simp [stagePath, writeFile, hne]

/-- C8: a successful `dry_run` returns a preview for a path exactly when
that path's reconstructed text differs from the original (and returns no
state at all — it only reads); and a successful `apply` leaves every path
whose changes are all no-ops (in particular every non-targeted path)
untouched in the working tree. -/
theorem c8_previews_iff_changed :
    (∀ (fs : FileSystem) (patchFn : PatchFn) (s : Suggestion)
        (previews : List ApplyPreview) (changes : List FileChange),
      dryRun fs patchFn s = .ok previews →
      computeChanges fs s = .ok changes →
      ∀ p : String,
        (∃ pv ∈ previews, pv.path = p) ↔
          ∃ c ∈ changes, c.path = p ∧ c.original ≠ c.updated) ∧
    (∀ (w : WorkTree) (s : Suggestion) (res : WorkTree)
        (changes : List FileChange),
      computeChanges w.fs s = .ok changes →
      applySuggestion w s = (.ok (), res) →
      ∀ p : String,
        (∀ c ∈ changes, c.path = p → c.original = c.updated) →
        res.fs p = w.fs p) := by
  constructor
  · intro fs patchFn s previews changes h1 h2 p
    unfold dryRun at h1
    rw [h2] at h1
    dsimp only at h1
    have hpaths := buildPreviews_paths h1
    constructor
    · rintro ⟨pv, hpv, rfl⟩
      have hm : pv.path ∈ previews.map (fun pv => pv.path) :=
        List.mem_map_of_mem _ hpv
      rw [hpaths] at hm
      obtain ⟨c, hc, hcp⟩ := List.mem_map.mp hm
      have hcf := List.mem_filter.mp hc
      refine ⟨c, hcf.1, hcp, ?_⟩
      simpa using hcf.2
    · rintro ⟨c, hc, hcp, hne⟩
      have hcf : c ∈ changes.filter fun c => !(c.original == c.updated) :=
        List.mem_filter.mpr ⟨hc, by simpa using hne⟩
      have hm : c.path ∈
          (changes.filter fun c => !(c.original == c.updated)).map
            (fun c => c.path) :=
        List.mem_map_of_mem _ hcf
      rw [← hpaths] at hm
      obtain ⟨pv, hpv, hpvp⟩ := List.mem_map.mp hm
      exact ⟨pv, hpv, by rw [hpvp, hcp]⟩
  · intro w s res changes h1 h2 p hall
    unfold applySuggestion at h2
    rw [h1] at h2
    dsimp only at h2
    by_cases hemp : changes.isEmpty
    · rw [if_pos hemp] at h2
      have hw := congrArg Prod.snd h2
      dsimp only at hw
      rw [← hw]
    · rw [if_neg hemp] at h2
      have hres := congrArg Prod.snd h2
      dsimp only at hres
      rw [← hres]
      exact applyFold_fs_preserved changes w p hall

/-- Witness for C8: a no-op suggestion yields no previews, and `apply`
leaves the file's content untouched. -/
theorem c8_previews_iff_changed_witness :
    ((∃ pv ∈ ([] : List ApplyPreview), pv.path = "a.txt") ↔
      ∃ c ∈ [({ path := "a.txt", original := ('a' :: 'b' :: []),
                updated := ('a' :: 'b' :: []) } : FileChange)],
        c.path = "a.txt" ∧ c.original ≠ c.updated) ∧
    (applySuggestion
        ⟨fun p => if p = "a.txt" then some ('a' :: 'b' :: []) else none, []⟩
        ⟨none, [⟨⟨"a.txt", .head, ⟨⟨1, some 1⟩, ⟨1, some 2⟩⟩⟩, ('a' :: [])⟩]⟩).2.fs
        "a.txt" =
      some ('a' :: 'b' :: []) :=
  ⟨c8_previews_iff_changed.1
      (fun p => if p = "a.txt" then some ('a' :: 'b' :: []) else none)
      (fun _ _ _ => .ok "")
      ⟨none, [⟨⟨"a.txt", .head, ⟨⟨1, some 1⟩, ⟨1, some 2⟩⟩⟩, ('a' :: [])⟩]⟩
      []
      [({ path := "a.txt", original := ('a' :: 'b' :: []),
          updated := ('a' :: 'b' :: []) } : FileChange)]
      rfl rfl "a.txt",
   (c8_previews_iff_changed.2
      ⟨fun p => if p = "a.txt" then some ('a' :: 'b' :: []) else none, []⟩
      ⟨none, [⟨⟨"a.txt", .head, ⟨⟨1, some 1⟩, ⟨1, some 2⟩⟩⟩, ('a' :: [])⟩]⟩
      (applySuggestion
        ⟨fun p => if p = "a.txt" then some ('a' :: 'b' :: []) else none, []⟩
        ⟨none, [⟨⟨"a.txt", .head, ⟨⟨1, some 1⟩, ⟨1, some 2⟩⟩⟩, ('a' :: [])⟩]⟩).2
      [({ path := "a.txt", original := ('a' :: 'b' :: []),
          updated := ('a' :: 'b' :: []) } : FileChange)]
      rfl rfl "a.txt" (by decide)).trans rfl⟩

end Prism
